import Mathlib

/-!
# Verification of the kona MPT trie-node codec

This file gives a shallow embedding, in Lean 4, of the Merkle Patricia Trie
node codec of `crates/mpt/src/node.rs` (the `TrieNode` type, its
`Encodable`/`Decodable` implementations, the blinding transform), of the
pieces of `alloy_rlp` that implementation uses (`Header`, byte-string and
`B256` coding), and of `EthereumDataSource::open_data` from
`crates/derive/src/sources/ethereum.rs`.

Bytes are modelled as `List Nat`; recursive decoding is modelled with an
explicit fuel parameter (the Rust recursion has no fuel; all theorems below
establish concrete `ok`/`err`/`crash` outcomes, which we show do not depend
on the fuel once it is sufficient).  A Rust panic (out-of-bounds index) is
modelled by the distinguished outcome `DOut.crash`.  The keccak-256 digest
is an opaque parameter `K : List Nat → B256` of the encoder: none of the
verified properties depends on the digest's value, only on its 32-byte
width, which the type `B256` enforces.
-/

/-- Bytes32: `B256` models `alloy_primitives::B256` (`FixedBytes<32>`): exactly 32 bytes. -/
abbrev B256 := { l : List Nat // l.length = 32 }

/-! ## Big-endian length bytes

`alloy_rlp` writes long payload lengths as minimal big-endian bytes
(`usize::to_be_bytes` with leading zeros stripped) and reads them back with
`u64::from_be_bytes`.  `beBytesAux` produces the little-endian digits with a
fuel argument (so that it is structurally recursive and kernel-reducible);
`beBytes` reverses them. -/

/-- Little-endian base-256 digits of `n`, with fuel (fuel `n` is always enough). -/
def beBytesAux : Nat → Nat → List Nat
  | 0, _ => []
  | _ + 1, 0 => []
  | fuel + 1, n + 1 => (n + 1) % 256 :: beBytesAux fuel ((n + 1) / 256)

/-- Minimal big-endian base-256 representation of `n` (empty for `n = 0`). -/
def beBytes (n : Nat) : List Nat := (beBytesAux n n).reverse

/-- Big-endian value of a byte list (models `u64::from_be_bytes` on ≤ 8 bytes). -/
def beVal (l : List Nat) : Nat := l.foldl (fun a b => a * 256 + b) 0

/-- Little-endian value of a digit list (proof helper). -/
def leVal : List Nat → Nat
  | [] => 0
  | d :: ds => d + 256 * leVal ds

/-! ## RLP errors and headers (`alloy_rlp`) -/

/-- The `alloy_rlp::Error` variants this codec can produce. -/
inductive RlpError where
  | inputTooShort
  | nonCanonicalSingleByte
  | leadingZero
  | nonCanonicalSize
  | unexpectedString
  | unexpectedList
  | unexpectedLength
deriving DecidableEq

/-- Model of `alloy_rlp::Header`. -/
structure RlpHeader where
  isList : Bool
  payloadLength : Nat
deriving DecidableEq

/-- Model of `alloy_rlp::length_of_length`: size in bytes of the encoded header. -/
def lengthOfLength (payloadLength : Nat) : Nat :=
  if payloadLength < 56 then 1 else 1 + (beBytes payloadLength).length

/-- Model of `Header::length`. -/
def RlpHeader.length (h : RlpHeader) : Nat := lengthOfLength h.payloadLength

/-- Model of `Header::encode`: short form `base + len`, long form `base + len_of_len` then
the big-endian length bytes. -/
def headerEncode (h : RlpHeader) : List Nat :=
  if h.payloadLength < 56 then
    [(if h.isList then 0xc0 else 0x80) + h.payloadLength]
  else
    ((if h.isList then 0xf7 else 0xb7) + (beBytes h.payloadLength).length)
      :: beBytes h.payloadLength

/-- Long-form tail of `Header::decode` (tags `0xb8..=0xbf` and `0xf8..=0xff`). -/
def headerDecodeLong (isList : Bool) (lenOfLen : Nat) (rest : List Nat) :
    Except RlpError (RlpHeader × List Nat) :=
  if rest.length < lenOfLen then .error .inputTooShort
  else if (rest.take lenOfLen).head? = some 0 then .error .leadingZero
  else if beVal (rest.take lenOfLen) < 56 then .error .nonCanonicalSize
  else if beVal (rest.take lenOfLen) ≤ (rest.drop lenOfLen).length then
    .ok (⟨isList, beVal (rest.take lenOfLen)⟩, rest.drop lenOfLen)
  else .error .inputTooShort

/-- Model of `Header::decode`.  Note the single-byte case (`0x00..=0x7f`) does not
consume the byte: the byte is itself the 1-byte payload. -/
def headerDecode (buf : List Nat) : Except RlpError (RlpHeader × List Nat) :=
  match buf with
  | [] => .error .inputTooShort
  | b :: rest =>
    if b ≤ 0x7f then
      .ok (⟨false, 1⟩, b :: rest)
    else if b ≤ 0xb7 then
      if b - 0x80 = 1 then
        if rest.length = 0 then .error .inputTooShort
        else if rest.headD 0 < 0x80 then .error .nonCanonicalSingleByte
        else if b - 0x80 ≤ rest.length then .ok (⟨false, b - 0x80⟩, rest)
        else .error .inputTooShort
      else if b - 0x80 ≤ rest.length then .ok (⟨false, b - 0x80⟩, rest)
      else .error .inputTooShort
    else if b ≤ 0xbf then
      headerDecodeLong false (b - 0xb7) rest
    else if b ≤ 0xf7 then
      if b - 0xc0 ≤ rest.length then .ok (⟨true, b - 0xc0⟩, rest)
      else .error .inputTooShort
    else
      headerDecodeLong true (b - 0xf7) rest

/-! ## Byte-string coding (`[u8]`/`Bytes`/`B256` in `alloy_rlp`) -/

/-- Model of `Encodable for [u8]`: a single byte `< 0x80` is its own encoding; anything
else is a string header followed by the bytes. -/
def encodeBytes (b : List Nat) : List Nat :=
  match b with
  | [x] => if x < 0x80 then [x] else headerEncode ⟨false, 1⟩ ++ [x]
  | _ => headerEncode ⟨false, b.length⟩ ++ b

/-- Model of `<[u8] as Encodable>::length`. -/
def bytesLength (b : List Nat) : Nat :=
  match b with
  | [x] => if x < 0x80 then 1 else 1 + lengthOfLength 1
  | _ => b.length + lengthOfLength b.length

/-- Model of `Bytes::decode` (`Header::decode_bytes(buf, false)`). -/
def bytesDecode (buf : List Nat) : Except RlpError (List Nat × List Nat) :=
  match headerDecode buf with
  | .error e => .error e
  | .ok (h, rest) =>
    if h.isList then .error .unexpectedList
    else .ok (rest.take h.payloadLength, rest.drop h.payloadLength)

/-- Model of `B256::decode`: a byte string whose payload must be exactly 32 bytes
(`try_from` failure is `Error::UnexpectedLength`). -/
def b256Decode (buf : List Nat) : Except RlpError (B256 × List Nat) :=
  match headerDecode buf with
  | .error e => .error e
  | .ok (h, rest) =>
    if h.isList then .error .unexpectedList
    else
      if hl : (rest.take h.payloadLength).length = 32 then
        .ok (⟨rest.take h.payloadLength, hl⟩, rest.drop h.payloadLength)
      else .error .unexpectedLength

/-! ## The `TrieNode` data model (`crates/mpt/src/node.rs`) -/

/-- Model of `TrieNode`: the five node variants of the kona MPT. -/
inductive TrieNode where
  | empty : TrieNode
  | blinded (commitment : B256) : TrieNode
  | leaf (key value : List Nat) : TrieNode
  | extension (pfx : List Nat) (node : TrieNode) : TrieNode
  | branch (stack : List TrieNode) : TrieNode

mutual
/-- Model of `<TrieNode as Encodable>::length`.  `B256::ZERO.length()` is the constant
`33`; `blindedLengthSum` is the fold in the `Branch` arm, with
`blinded_length` inlined (a blinded slot contributes `33`, the length of an
encoded 32-byte string). -/
def TrieNode.length : TrieNode → Nat
  | .empty => 1
  | .blinded c => bytesLength c.val
  | .leaf k v =>
      lengthOfLength (bytesLength k + bytesLength v) + (bytesLength k + bytesLength v)
  | .extension p c =>
      let pl := bytesLength p
      let nl := if TrieNode.length c > 33 then 33 else TrieNode.length c
      lengthOfLength (pl + nl) + pl + nl
  | .branch s =>
      blindedLengthSum s + lengthOfLength (blindedLengthSum s)
def blindedLengthSum : List TrieNode → Nat
  | [] => 0
  | a :: as =>
      (if TrieNode.length a > 33 then 33 else TrieNode.length a) + blindedLengthSum as
end

/-- Model of `blinded_length`: `B256::ZERO.length()` (= 33) if the encoding is longer
than that, the node's own length otherwise. -/
def blindedLength (n : TrieNode) : Nat :=
  if TrieNode.length n > 33 then 33 else TrieNode.length n

mutual
/-- Model of `<TrieNode as Encodable>::encode`, parameterised by the keccak-256 digest
`K`.  The `encode_blinded` calls on extension children and branch slots are
inlined (the encoding of `Blinded{keccak(enc)}` is `encodeBytes` of the
digest bytes).  NOTE: the `Extension` arm writes its header with the child's
un-blinded `length()`, exactly as the source does. -/
def TrieNode.encode (K : List Nat → B256) : TrieNode → List Nat
  | .empty => [0x80]
  | .blinded c => encodeBytes c.val
  | .leaf k v =>
      headerEncode ⟨true, bytesLength k + bytesLength v⟩ ++ encodeBytes k ++ encodeBytes v
  | .extension p c =>
      headerEncode ⟨true, bytesLength p + TrieNode.length c⟩ ++ encodeBytes p ++
        (if TrieNode.length c > 33 then encodeBytes (K (TrieNode.encode K c)).val
         else TrieNode.encode K c)
  | .branch s =>
      headerEncode ⟨true, blindedLengthSum s⟩ ++ encodeSlots K s
def encodeSlots (K : List Nat → B256) : List TrieNode → List Nat
  | [] => []
  | a :: as =>
      (if TrieNode.length a > 33 then encodeBytes (K (TrieNode.encode K a)).val
       else TrieNode.encode K a) ++ encodeSlots K as
end

/-- Model of `TrieNode::blind`. -/
def TrieNode.blind (K : List Nat → B256) (n : TrieNode) : TrieNode :=
  if TrieNode.length n > 33 then .blinded (K (TrieNode.encode K n)) else n

/-- Model of `encode_blinded`, as a function from the node to the bytes it appends. -/
def encodeBlinded (K : List Nat → B256) (n : TrieNode) : List Nat :=
  if TrieNode.length n > 33 then TrieNode.encode K (.blinded (K (TrieNode.encode K n)))
  else TrieNode.encode K n

/-! ## Decoding (`Decodable for TrieNode`)

Decoding outcomes.  `crash` models a Rust panic (the only one reachable in
this code is the out-of-bounds index `path[0]` on an empty decoded path);
`fuel` marks exhaustion of the artificial fuel parameter and is never the
outcome of `TrieNode.decode` in any theorem below. -/
inductive DOut (ε α : Type) where
  | ok (a : α) : DOut ε α
  | err (e : RlpError) : DOut ε α
  | crash : DOut ε α
  | fuel : DOut ε α
deriving DecidableEq

/-- The `anyhow` error of `try_decode_leaf_or_extension_payload`: either a
wrapped decode failure (`Failed to decode: ..`) or the bad-path-prefix
bail-out (`Unexpected path identifier in high-order nibble`). -/
inductive PayloadError where
  | failedDecode (e : RlpError) : PayloadError
  | badPathPrefix : PayloadError
deriving DecidableEq

/-- Outcomes carrying a `PayloadError`. -/
inductive POut (α : Type) where
  | ok (a : α) : POut α
  | err (e : PayloadError) : POut α
  | crash : POut α
  | fuel : POut α
deriving DecidableEq

/-- The loop of `rlp_list_element_length`: while more than `target` bytes
remain, read one header, skip its payload, count one element. -/
def countItemsAux : Nat → Nat → List Nat → Nat → DOut RlpError Nat
  | 0, _, _, _ => .fuel
  | fuel + 1, target, buf, acc =>
    if target < buf.length then
      match headerDecode buf with
      | .error e => .err e
      | .ok (h, rest) => countItemsAux fuel target (rest.drop h.payloadLength) (acc + 1)
    else .ok acc

/-- Model of `rlp_list_element_length`: number of top-level elements of the list at the
head of `buf` (reads a copy of the cursor). -/
def rlpListElementLength (buf : List Nat) : DOut RlpError Nat :=
  match headerDecode buf with
  | .error e => .err e
  | .ok (h, rest) =>
    if h.isList then countItemsAux (rest.length + 1) (rest.length - h.payloadLength) rest 0
    else .err .unexpectedString

mutual
/-- Model of `<TrieNode as Decodable>::decode`, fuelled.  The header and the list
arity are read on non-consuming copies of the cursor, exactly as in the
source (`Header::decode(&mut (**buf).as_ref())`). -/
def decodeNodeAux : Nat → List Nat → DOut RlpError (TrieNode × List Nat)
  | 0, _ => .fuel
  | fuel + 1, buf =>
    match headerDecode buf with
    | .error e => .err e
    | .ok (h, _) =>
      if h.isList then
        match rlpListElementLength buf with
        | .err e => .err e
        | .crash => .crash
        | .fuel => .fuel
        | .ok listLength =>
          if listLength = 17 then
            match decodeVecAux fuel buf with
            | .ok (stack, rest) => .ok (.branch stack, rest)
            | .err e => .err e
            | .crash => .crash
            | .fuel => .fuel
          else if listLength = 2 then
            match tryDecodeLeafOrExtensionPayload fuel (buf.drop h.length) with
            | .ok (n, rest) => .ok (n, rest)
            | .err _ => .err .unexpectedList
            | .crash => .crash
            | .fuel => .fuel
          else .err .unexpectedLength
      else
        if h.payloadLength = 0 then .ok (.empty, buf.drop h.length)
        else if h.payloadLength ≠ 32 then .err .unexpectedLength
        else
          match b256Decode buf with
          | .error e => .err e
          | .ok (c, rest) => .ok (.blinded c, rest)
/-- Model of `Vec::<TrieNode>::decode`: consume the list header, then decode nodes
from the payload slice until it is exhausted. -/
def decodeVecAux : Nat → List Nat → DOut RlpError (List TrieNode × List Nat)
  | 0, _ => .fuel
  | fuel + 1, buf =>
    match headerDecode buf with
    | .error e => .err e
    | .ok (h, rest) =>
      if h.isList then
        match decodeSeqAux fuel (rest.take h.payloadLength) with
        | .ok stack => .ok (stack, rest.drop h.payloadLength)
        | .err e => .err e
        | .crash => .crash
        | .fuel => .fuel
      else .err .unexpectedString
/-- The element loop of `Vec::<TrieNode>::decode`. -/
def decodeSeqAux : Nat → List Nat → DOut RlpError (List TrieNode)
  | 0, _ => .fuel
  | fuel + 1, buf =>
    if buf.isEmpty then .ok []
    else
      match decodeNodeAux fuel buf with
      | .ok (n, rest) =>
        match decodeSeqAux fuel rest with
        | .ok stack => .ok (n :: stack)
        | .err e => .err e
        | .crash => .crash
        | .fuel => .fuel
      | .err e => .err e
      | .crash => .crash
      | .fuel => .fuel
/-- Model of `TrieNode::try_decode_leaf_or_extension_payload`: decode the path, then
classify on the high-order nibble of its first byte.  `path[0]` on an empty
path is the Rust panic, modelled as `crash`. -/
def tryDecodeLeafOrExtensionPayload : Nat → List Nat → POut (TrieNode × List Nat)
  | 0, _ => .fuel
  | fuel + 1, buf =>
    match bytesDecode buf with
    | .error e => .err (.failedDecode e)
    | .ok (path, buf1) =>
      match path with
      | [] => .crash
      | p0 :: _ =>
        match p0 / 16 with
        | 0 | 1 =>
          match decodeNodeAux fuel buf1 with
          | .ok (child, buf2) => .ok (.extension path child, buf2)
          | .err e => .err (.failedDecode e)
          | .crash => .crash
          | .fuel => .fuel
        | 2 | 3 =>
          match bytesDecode buf1 with
          | .error e => .err (.failedDecode e)
          | .ok (value, buf2) => .ok (.leaf path value, buf2)
        | _ => .err .badPathPrefix
end

/-- Model of `<TrieNode as Decodable>::decode`, with fuel `3 * |buf| + 3` (shown
sufficient for every outcome proved below). -/
def TrieNode.decode (buf : List Nat) : DOut RlpError (TrieNode × List Nat) :=
  decodeNodeAux (3 * buf.length + 3) buf

/-- A byte chunk whose RLP header can be read at its front and skipped to
land exactly at its end, for any continuation. -/
def HeaderChunk (c : List Nat) : Prop :=
  c ≠ [] ∧ ∀ t, ∃ h r, headerDecode (c ++ t) = .ok (h, r) ∧ r.drop h.payloadLength = t

/-! ## Well-formed open nodes and the round-trip -/

/-- The well-formed open nodes of claim C1: branch stacks have exactly 17
slots, leaf keys start with high nibble 2 or 3, extension prefixes with high
nibble 0 or 1, paths are non-empty, and no child node's encoding exceeds 33
bytes.  The `< 2 ^ 60` bounds on the byte fields reflect representability in
the Rust program (lengths are `usize` and payloads must stay below `2 ^ 64`
for the wire format's 8-length-byte cap; any in-memory Rust value satisfies
them). -/
inductive GoodNode : TrieNode → Prop where
  | empty : GoodNode .empty
  | blinded (c : B256) : GoodNode (.blinded c)
  | leaf (p0 : Nat) (kt v : List Nat) :
      (p0 / 16 = 2 ∨ p0 / 16 = 3) →
      (p0 :: kt).length < 2 ^ 60 → v.length < 2 ^ 60 →
      GoodNode (.leaf (p0 :: kt) v)
  | extension (p0 : Nat) (pt : List Nat) (c : TrieNode) :
      (p0 / 16 = 0 ∨ p0 / 16 = 1) →
      (p0 :: pt).length < 2 ^ 60 →
      TrieNode.length c ≤ 33 → GoodNode c →
      GoodNode (.extension (p0 :: pt) c)
  | branch (s : List TrieNode) :
      s.length = 17 →
      (∀ a ∈ s, TrieNode.length a ≤ 33) →
      (∀ a ∈ s, GoodNode a) →
      GoodNode (.branch s)

mutual
/-- Fuel sufficient for `decodeNodeAux` on the encoding of `n`. -/
def nodeNeed : TrieNode → Nat
  | .empty => 1
  | .blinded _ => 1
  | .leaf _ _ => 2
  | .extension _ c => 2 + nodeNeed c
  | .branch s => 2 + seqNeed s
/-- Fuel sufficient for `decodeSeqAux` on the concatenated slot encodings. -/
def seqNeed : List TrieNode → Nat
  | [] => 1
  | a :: as => 1 + max (nodeNeed a) (seqNeed as)
end

/-! ## `EthereumDataSource` (`crates/derive/src/sources/ethereum.rs`) -/

/-- Modelled from the spec: `BlockInfo` (derive crate types) is not under
`src/`; `open_data` consumes only its `timestamp` (a `u64`). -/
structure BlockInfo where
  hash : Nat
  number : Nat
  parent_hash : Nat
  timestamp : Nat

/-- Modelled from the spec: `BlobSource::new` is not under `src/`; modelled
as the record of the arguments `open_data` passes to it. -/
structure BlobSource (C B : Type) where
  chain_provider : C
  blob_provider : B
  batcher_address : Nat
  block_ref : BlockInfo
  signer : Nat

/-- Modelled from the spec: `CalldataSource::new` is not under `src/`;
modelled as the record of the arguments `open_data` passes to it. -/
structure CalldataSource (C : Type) where
  chain_provider : C
  batcher_address : Nat
  block_ref : BlockInfo
  signer : Nat

/-- Model of `EthereumDataSourceVariant`: the two data-source variants. -/
inductive EthereumDataSourceVariant (C B : Type) where
  | blob (src : BlobSource C B) : EthereumDataSourceVariant C B
  | calldata (src : CalldataSource C) : EthereumDataSourceVariant C B

/-- Model of `EthereumDataSource`: the factory state. -/
structure EthereumDataSource (C B : Type) where
  chain_provider : C
  blob_provider : B
  ecotone_timestamp : Option Nat
  signer : Nat

/-- Whether the variant is the blob source. -/
def EthereumDataSourceVariant.isBlob {C B : Type} :
    EthereumDataSourceVariant C B → Bool
  | .blob _ => true
  | .calldata _ => false

/-- Model of `EthereumDataSource::open_data`: `ecotone_timestamp.map(|e| ts >= e)
.unwrap_or(false)` picks the blob source, otherwise calldata; always `Ok`. -/
def EthereumDataSource.openData {C B : Type} (s : EthereumDataSource C B)
    (block_ref : BlockInfo) (batcher_address : Nat) :
    Except String (EthereumDataSourceVariant C B) :=
  let ecotone_enabled :=
    (s.ecotone_timestamp.map fun e => decide (block_ref.timestamp ≥ e)).getD false
  if ecotone_enabled then
    .ok (.blob ⟨s.chain_provider, s.blob_provider, batcher_address, block_ref, s.signer⟩)
  else
    .ok (.calldata ⟨s.chain_provider, batcher_address, block_ref, s.signer⟩)

/-- A concrete stand-in digest function used by closed witnesses (the claims
hold for every `K`). -/
def K0 : List Nat → B256 := fun _ => ⟨List.replicate 32 0, by simp⟩

/-- The S3 leaf: key `30`, value 64 bytes of `ff`.  Its encoding is 69 bytes
(f8 43 30 b8 40 ff×64), so it must be blinded inside any parent. -/
def longLeaf : TrieNode := .leaf [0x30] (List.replicate 64 0xff)

/-- The S3 extension: prefix `00 64 6f` with `longLeaf` as child. -/
def longChildExt : TrieNode := .extension [0x00, 0x64, 0x6f] longLeaf

/-! ## Theorems -/

theorem beVal_append (l : List Nat) (d : Nat) : beVal (l ++ [d]) = beVal l * 256 + d := by
  simp [beVal, List.foldl_append]

theorem beVal_reverse (l : List Nat) : beVal l.reverse = leVal l := by
  induction l with
  | nil => rfl
  | cons d ds ih => simp [List.reverse_cons, beVal_append, ih, leVal]; ring

theorem beBytesAux_zero (fuel : Nat) : beBytesAux fuel 0 = [] := by
  cases fuel <;> rfl

theorem leVal_beBytesAux : ∀ fuel n, n ≤ fuel → leVal (beBytesAux fuel n) = n := by
  intro fuel
  induction fuel with
  | zero => intro n hn; interval_cases n; rfl
  | succ fuel ih =>
    intro n hn
    match n with
    | 0 => rfl
    | n + 1 =>
      have hdiv : (n + 1) / 256 ≤ fuel := by
        have h1 : (n + 1) / 256 < n + 1 := Nat.div_lt_self (Nat.succ_pos n) (by norm_num)
        omega
      simp only [beBytesAux, leVal, ih _ hdiv]
      omega

theorem beVal_beBytes (n : Nat) : beVal (beBytes n) = n := by
  rw [beBytes, beVal_reverse, leVal_beBytesAux n n (le_refl n)]

theorem beBytesAux_ne_nil (fuel n : Nat) (h1 : 1 ≤ n) (h2 : n ≤ fuel) :
    beBytesAux fuel n ≠ [] := by
  match fuel, n with
  | 0, n => omega
  | fuel + 1, 0 => omega
  | fuel + 1, n + 1 => simp [beBytesAux]

theorem beBytesAux_getLast : ∀ fuel n, 1 ≤ n → n ≤ fuel → ∀ d,
    (beBytesAux fuel n).getLast? = some d → d ≠ 0 := by
  intro fuel
  induction fuel with
  | zero => intro n h1 h2; omega
  | succ fuel ih =>
    intro n h1 h2 d hd
    obtain ⟨m, rfl⟩ : ∃ m, n = m + 1 := ⟨n - 1, by omega⟩
    have hdivlt : (m + 1) / 256 < m + 1 := Nat.div_lt_self (Nat.succ_pos m) (by norm_num)
    simp only [beBytesAux] at hd
    by_cases hq : (m + 1) / 256 = 0
    · rw [hq, beBytesAux_zero, List.getLast?_singleton, Option.some_inj] at hd
      have hlt : m + 1 < 256 := (Nat.div_eq_zero_iff (by norm_num)).1 hq
      have : (m + 1) % 256 = m + 1 := Nat.mod_eq_of_lt hlt
      omega
    · have hne : beBytesAux fuel ((m + 1) / 256) ≠ [] :=
        beBytesAux_ne_nil fuel ((m + 1) / 256) (by omega) (by omega)
      obtain ⟨y, t, hyt⟩ := List.exists_cons_of_ne_nil hne
      rw [hyt, List.getLast?_cons_cons] at hd
      exact ih ((m + 1) / 256) (by omega) (by omega) d (by rw [hyt]; exact hd)

theorem beBytes_head_ne_zero (n : Nat) (h : 1 ≤ n) (d : Nat)
    (hd : (beBytes n).head? = some d) : d ≠ 0 := by
  rw [beBytes, List.head?_reverse] at hd
  exact beBytesAux_getLast n n h (le_refl n) d hd

theorem beBytesAux_length_le : ∀ fuel n k, n ≤ fuel → n < 256 ^ k →
    (beBytesAux fuel n).length ≤ k := by
  intro fuel
  induction fuel with
  | zero => intro n k h1 h2; interval_cases n; simp [beBytesAux]
  | succ fuel ih =>
    intro n k h1 h2
    match n with
    | 0 => simp [beBytesAux]
    | n + 1 =>
      match k with
      | 0 => simp at h2
      | k + 1 =>
        simp only [beBytesAux, List.length_cons]
        have hdivlt : (n + 1) / 256 < n + 1 := Nat.div_lt_self (Nat.succ_pos n) (by norm_num)
        have hle : (n + 1) / 256 ≤ fuel := by omega
        have hval : (n + 1) / 256 < 256 ^ k := by
          rw [Nat.div_lt_iff_lt_mul (by norm_num)]
          calc n + 1 < 256 ^ (k + 1) := h2
            _ = 256 ^ k * 256 := by ring
        have := ih _ k hle hval
        omega

theorem beBytes_length_le (n k : Nat) (h : n < 256 ^ k) : (beBytes n).length ≤ k := by
  rw [beBytes, List.length_reverse]
  exact beBytesAux_length_le n n k (le_refl n) h

theorem beBytes_ne_nil (n : Nat) (h : 1 ≤ n) : beBytes n ≠ [] := by
  rw [beBytes]
  simp only [ne_eq, List.reverse_eq_nil_iff]
  exact beBytesAux_ne_nil n n h (le_refl n)

theorem headerEncode_length (h : RlpHeader) : (headerEncode h).length = h.length := by
  unfold headerEncode RlpHeader.length lengthOfLength
  split <;> simp [Nat.add_comm]

theorem encode_extension_eq (K : List Nat → B256) (p : List Nat) (c : TrieNode) :
    TrieNode.encode K (.extension p c) =
      headerEncode ⟨true, bytesLength p + TrieNode.length c⟩ ++ encodeBytes p ++
        encodeBlinded K c := by
  simp only [TrieNode.encode, encodeBlinded]

theorem encodeSlots_eq (K : List Nat → B256) (s : List TrieNode) :
    encodeSlots K s = (s.map fun a => TrieNode.encode K (TrieNode.blind K a)).flatten := by
  induction s with
  | nil => rfl
  | cons a as ih =>
    simp only [encodeSlots, List.map_cons, List.flatten_cons, ih, TrieNode.blind]
    congr 1
    split <;> simp [TrieNode.encode]

/-- Sanity check: the single byte `80` decodes to `Empty`. -/
theorem sanity_decode_empty : TrieNode.decode [0x80] = .ok (.empty, []) := by rfl

/-- Sanity check: decoding the empty buffer reports `InputTooShort`. -/
theorem sanity_decode_nil : TrieNode.decode [] = .err .inputTooShort := by rfl

/-- Sanity check against the repository's `test_decode_leaf` vector. -/
theorem sanity_decode_leaf_vector :
    TrieNode.decode [0xca, 0x83, 0x20, 0x64, 0x6f, 0x85, 0x76, 0x65, 0x72, 0x62, 0xff] =
      .ok (.leaf [0x20, 0x64, 0x6f] [0x76, 0x65, 0x72, 0x62, 0xff], []) := by rfl

/-- Sanity check: re-encoding the leaf vector reproduces its bytes. -/
theorem sanity_encode_leaf_vector :
    TrieNode.encode K0 (.leaf [0x20, 0x64, 0x6f] [0x76, 0x65, 0x72, 0x62, 0xff]) =
      [0xca, 0x83, 0x20, 0x64, 0x6f, 0x85, 0x76, 0x65, 0x72, 0x62, 0xff] := by rfl

/-- Sanity check against the repository's `test_encode_decode_extension_open_short`
vector `d2 83 00 64 6f cd 30 8b 8a 74 65 73 74 20 74 68 72 65 65`. -/
theorem sanity_decode_extension_vector :
    TrieNode.decode [0xd2, 0x83, 0x00, 0x64, 0x6f, 0xcd, 0x30, 0x8b,
        0x8a, 0x74, 0x65, 0x73, 0x74, 0x20, 0x74, 0x68, 0x72, 0x65, 0x65] =
      .ok (.extension [0x00, 0x64, 0x6f]
        (.leaf [0x30] [0x8a, 0x74, 0x65, 0x73, 0x74, 0x20, 0x74, 0x68, 0x72, 0x65, 0x65]), []) := by
  rfl

/-! ## Header lemmas -/

theorem headerDecodeLong_ok_le {il : Bool} {lol : Nat} {rest : List Nat}
    {h : RlpHeader} {r : List Nat} (hd : headerDecodeLong il lol rest = .ok (h, r)) :
    h.payloadLength ≤ r.length := by
  unfold headerDecodeLong at hd
  split_ifs at hd with h1 h2 h3 h4 <;> try simp at hd
  obtain ⟨hh, hr⟩ := hd
  subst hr
  subst hh
  exact h4

theorem headerDecode_ok_le {buf : List Nat} {h : RlpHeader} {r : List Nat}
    (hd : headerDecode buf = .ok (h, r)) : h.payloadLength ≤ r.length := by
  match buf with
  | [] => simp [headerDecode] at hd
  | b :: rest =>
    simp only [headerDecode] at hd
    split_ifs at hd with h1 h2 h3 h4 h5 h6 h7 h8 h9 <;> try simp at hd
    all_goals try exact headerDecodeLong_ok_le hd
    all_goals
      obtain ⟨hh, hr⟩ := hd
      subst hr
      subst hh
      simp only [RlpHeader.payloadLength, List.length_cons]
      omega

theorem headerDecodeLong_append {il : Bool} {lol : Nat} {rest : List Nat}
    {h : RlpHeader} {r : List Nat} (s : List Nat)
    (hd : headerDecodeLong il lol rest = .ok (h, r)) :
    headerDecodeLong il lol (rest ++ s) = .ok (h, r ++ s) := by
  unfold headerDecodeLong at hd ⊢
  split_ifs at hd with h1 h2 h3 h4 <;> try simp at hd
  obtain ⟨hh, hr⟩ := hd
  subst hr
  subst hh
  have hlol : lol ≤ rest.length := by omega
  have h4' : beVal (List.take lol rest) ≤ rest.length - lol := by
    simpa using h4
  rw [List.take_append_of_le_length hlol, List.drop_append_of_le_length hlol]
  rw [if_neg (by simp; omega), if_neg h2, if_neg h3,
    if_pos (by simp only [List.length_append, List.length_drop]; omega)]

theorem headerDecode_append {buf : List Nat} {h : RlpHeader} {r : List Nat}
    (s : List Nat) (hd : headerDecode buf = .ok (h, r)) :
    headerDecode (buf ++ s) = .ok (h, r ++ s) := by
  match buf with
  | [] => simp [headerDecode] at hd
  | b :: rest =>
    simp only [List.cons_append, headerDecode] at hd ⊢
    split_ifs at hd with h1 h2 h3 h4 h5 h6 h7 h8 h9 <;> try simp at hd
    · obtain ⟨hh, hr⟩ := hd; subst hr; subst hh
      rw [if_pos h1]
      simp
    · obtain ⟨hh, hr⟩ := hd; subst hr; subst hh
      obtain ⟨c, rest2, rfl⟩ : ∃ c rest2, rest = c :: rest2 := by
        cases rest with
        | nil => simp at h4
        | cons c t => exact ⟨c, t, rfl⟩
      rw [if_neg h1, if_pos h2, if_pos h3, if_neg (by simp), if_neg (by simpa using h5),
        if_pos (by simp; omega)]
    · obtain ⟨hh, hr⟩ := hd; subst hr; subst hh
      rw [if_neg h1, if_pos h2, if_neg h3, if_pos (by simp; omega)]
    · rw [if_neg h1, if_neg h2, if_pos h8]
      exact headerDecodeLong_append s hd
    · obtain ⟨hh, hr⟩ := hd; subst hr; subst hh
      rw [if_neg h1, if_neg h2, if_neg h8, if_pos h9, if_pos (by simp; omega)]
    · rw [if_neg h1, if_neg h2, if_neg h8, if_neg h9]
      exact headerDecodeLong_append s hd

theorem headerDecodeLong_beBytes (il : Bool) (P : Nat) (tail : List Nat)
    (h56 : 56 ≤ P) (h64 : P < 2 ^ 64) (hle : P ≤ tail.length) :
    headerDecodeLong il (beBytes P).length (beBytes P ++ tail) = .ok (⟨il, P⟩, tail) := by
  have hne : beBytes P ≠ [] := beBytes_ne_nil P (by omega)
  unfold headerDecodeLong
  rw [List.take_left, List.drop_left]
  rw [if_neg (by simp)]
  rw [if_neg ?hz]
  case hz =>
    intro hc
    obtain ⟨d, hd⟩ : ∃ d, (beBytes P).head? = some d := by
      cases hb : (beBytes P).head? with
      | none => exact absurd (List.head?_eq_none_iff.1 hb) hne
      | some d => exact ⟨d, rfl⟩
    rw [hd] at hc
    exact beBytes_head_ne_zero P (by omega) d hd (by simpa using hc)
  rw [beVal_beBytes]
  rw [if_neg (by omega), if_pos hle]

theorem headerDecode_headerEncode_list (P : Nat) (tail : List Nat)
    (h64 : P < 2 ^ 64) (hle : P ≤ tail.length) :
    headerDecode (headerEncode ⟨true, P⟩ ++ tail) = .ok (⟨true, P⟩, tail) := by
  by_cases h56 : P < 56
  · have he : headerEncode ⟨true, P⟩ = [0xc0 + P] := by simp [headerEncode, h56]
    rw [he]
    simp only [List.cons_append, List.nil_append, headerDecode]
    rw [if_neg (by omega), if_neg (by omega), if_neg (by omega), if_pos (by omega)]
    have hP : 0xc0 + P - 0xc0 = P := by omega
    rw [hP, if_pos (by simpa using hle)]
  · have hlol8 : (beBytes P).length ≤ 8 := beBytes_length_le P 8 (by norm_num at h64 ⊢; omega)
    have hlol1 : 1 ≤ (beBytes P).length :=
      List.length_pos.2 (beBytes_ne_nil P (by omega))
    have he : headerEncode ⟨true, P⟩ = (0xf7 + (beBytes P).length) :: beBytes P := by
      simp [headerEncode, h56]
    rw [he]
    simp only [List.cons_append, headerDecode]
    rw [if_neg (by omega), if_neg (by omega), if_neg (by omega), if_neg (by omega)]
    have hL : 0xf7 + (beBytes P).length - 0xf7 = (beBytes P).length := by omega
    rw [hL]
    exact headerDecodeLong_beBytes true P tail (by omega) h64 hle

theorem headerDecode_encodeBytes (bs tail : List Nat) (h64 : bs.length < 2 ^ 64) :
    headerDecode (encodeBytes bs ++ tail) = .ok (⟨false, bs.length⟩, bs ++ tail) := by
  match bs with
  | [] =>
    have he : encodeBytes [] = [0x80] := by simp [encodeBytes, headerEncode]
    rw [he]
    simp only [List.cons_append, List.nil_append, headerDecode]
    rw [if_neg (by omega), if_pos (by omega), if_neg (by omega), if_pos (by omega)]
    simp
  | [x] =>
    by_cases hx : x < 0x80
    · have he : encodeBytes [x] = [x] := by simp [encodeBytes, hx]
      rw [he]
      simp only [List.cons_append, List.nil_append, headerDecode]
      rw [if_pos (by omega)]
      simp
    · have he : encodeBytes [x] = [0x81, x] := by simp [encodeBytes, hx, headerEncode]
      rw [he]
      simp [headerDecode, hx]
  | x :: y :: t =>
    by_cases h56 : (x :: y :: t).length < 56
    · have he : encodeBytes (x :: y :: t) = (0x80 + (x :: y :: t).length) :: (x :: y :: t) := by
        simp only [encodeBytes, headerEncode, if_pos h56]
        rfl
      rw [he]
      simp only [List.cons_append, headerDecode]
      rw [if_neg (by simp only [List.length_cons] at h56 ⊢; omega),
        if_pos (by simp only [List.length_cons] at h56 ⊢; omega),
        if_neg (by simp only [List.length_cons] at h56 ⊢; omega),
        if_pos (by simp only [List.length_cons, List.length_append] at h56 ⊢; omega)]
      have hP : 0x80 + (x :: y :: t).length - 0x80 = (x :: y :: t).length := by omega
      rw [hP]
    · have hlol8 : (beBytes (x :: y :: t).length).length ≤ 8 :=
        beBytes_length_le _ 8 (by norm_num at h64 ⊢; omega)
      have hlol1 : 1 ≤ (beBytes (x :: y :: t).length).length :=
        List.length_pos.2 (beBytes_ne_nil _ (by simp))
      have he : encodeBytes (x :: y :: t) =
          ((0xb7 + (beBytes (x :: y :: t).length).length) :: beBytes (x :: y :: t).length)
            ++ (x :: y :: t) := by
        simp only [encodeBytes, headerEncode, if_neg h56]
        rfl
      rw [he]
      simp only [List.cons_append, headerDecode]
      rw [if_neg (by omega), if_neg (by omega), if_pos (by omega)]
      have hL : 0xb7 + (beBytes (x :: y :: t).length).length - 0xb7 =
          (beBytes (x :: y :: t).length).length := by omega
      rw [hL, List.append_assoc]
      exact headerDecodeLong_beBytes false (x :: y :: t).length ((x :: y :: t) ++ tail)
        (by omega) h64 (by simp)

theorem bytesDecode_encodeBytes (bs tail : List Nat) (h64 : bs.length < 2 ^ 64) :
    bytesDecode (encodeBytes bs ++ tail) = .ok (bs, tail) := by
  unfold bytesDecode
  rw [headerDecode_encodeBytes bs tail h64]
  simp [List.take_left, List.drop_left]

theorem encodeBytes_length (bs : List Nat) : (encodeBytes bs).length = bytesLength bs := by
  match bs with
  | [] => rfl
  | [x] =>
    by_cases hx : x < 0x80 <;>
      simp [encodeBytes, bytesLength, headerEncode, lengthOfLength, hx]
  | x :: y :: t =>
    show (headerEncode ⟨false, (x :: y :: t).length⟩ ++ (x :: y :: t)).length =
      (x :: y :: t).length + lengthOfLength (x :: y :: t).length
    rw [List.length_append, headerEncode_length]
    simp [RlpHeader.length, Nat.add_comm]

theorem encodeBytes_ne_nil (bs : List Nat) : encodeBytes bs ≠ [] := by
  match bs with
  | [] => simp [encodeBytes, headerEncode]
  | [x] =>
    by_cases hx : x < 0x80 <;> simp [encodeBytes, headerEncode, hx]
  | x :: y :: t =>
    by_cases h56 : (x :: y :: t).length < 56 <;> simp [encodeBytes, headerEncode, h56]

theorem headerChunk_encodeBytes (bs : List Nat) (h64 : bs.length < 2 ^ 64) :
    HeaderChunk (encodeBytes bs) :=
  ⟨encodeBytes_ne_nil bs, fun t =>
    ⟨⟨false, bs.length⟩, bs ++ t, headerDecode_encodeBytes bs t h64, List.drop_left bs t⟩⟩

theorem chunks_length_le (cs : List (List Nat)) (h : ∀ c ∈ cs, c ≠ []) :
    cs.length ≤ cs.flatten.length := by
  induction cs with
  | nil => simp
  | cons c cs ih =>
    have hc : c ≠ [] := h c (by simp)
    have h1 : 1 ≤ c.length := List.length_pos.2 hc
    have := ih (fun d hd => h d (by simp [hd]))
    simp only [List.flatten_cons, List.length_append, List.length_cons]
    omega

theorem countItemsAux_chunks : ∀ (cs : List (List Nat)) (t : List Nat) (acc fuel : Nat),
    (∀ c ∈ cs, HeaderChunk c) → cs.length < fuel →
    countItemsAux fuel t.length (cs.flatten ++ t) acc = .ok (acc + cs.length) := by
  intro cs
  induction cs with
  | nil =>
    intro t acc fuel _ hf
    obtain ⟨f, rfl⟩ : ∃ f, fuel = f + 1 := ⟨fuel - 1, by omega⟩
    simp [countItemsAux]
  | cons c cs ih =>
    intro t acc fuel hall hf
    obtain ⟨f, rfl⟩ : ∃ f, fuel = f + 1 := ⟨fuel - 1, by omega⟩
    obtain ⟨hne, hskip⟩ := hall c (by simp)
    obtain ⟨h, r, hdec, hdrop⟩ := hskip (cs.flatten ++ t)
    have h1 : 1 ≤ c.length := List.length_pos.2 hne
    simp only [List.flatten_cons, List.append_assoc]
    rw [countItemsAux, if_pos (by simp; omega), hdec]
    show countItemsAux f t.length (List.drop h.payloadLength r) (acc + 1) =
      .ok (acc + (c :: cs).length)
    rw [hdrop]
    rw [ih t (acc + 1) f (fun d hd => hall d (by simp [hd])) (by simp at hf; omega)]
    congr 1
    simp
    omega

theorem countItemsAux_mono_append : ∀ (fuel : Nat) (target : Nat) (buf : List Nat)
    (acc k : Nat) (s : List Nat) (fuel' : Nat),
    countItemsAux fuel target buf acc = .ok k → fuel ≤ fuel' →
    countItemsAux fuel' (target + s.length) (buf ++ s) acc = .ok k := by
  intro fuel
  induction fuel with
  | zero => intro _ _ _ _ _ _ hd _; simp [countItemsAux] at hd
  | succ fuel ih =>
    intro target buf acc k s fuel' hd hle
    obtain ⟨f', rfl⟩ : ∃ f', fuel' = f' + 1 := ⟨fuel' - 1, by omega⟩
    rw [countItemsAux] at hd
    rw [countItemsAux]
    by_cases hcond : target < buf.length
    · rw [if_pos hcond] at hd
      rw [if_pos (by simp; omega)]
      rcases hh : headerDecode buf with e | ⟨h, r⟩
      · rw [hh] at hd; simp at hd
      · rw [hh] at hd
        rw [headerDecode_append s hh]
        have hd' : countItemsAux fuel target (r.drop h.payloadLength) (acc + 1) = .ok k := hd
        show countItemsAux f' (target + s.length) ((r ++ s).drop h.payloadLength) (acc + 1) =
          .ok k
        have hple := headerDecode_ok_le hh
        have hdp : (r ++ s).drop h.payloadLength = r.drop h.payloadLength ++ s :=
          List.drop_append_of_le_length hple
        rw [hdp]
        exact ih target _ (acc + 1) k s f' hd' (by omega)
    · rw [if_neg hcond] at hd
      rw [if_neg (by simp; omega)]
      exact hd

theorem rlpListElementLength_append {buf : List Nat} {k : Nat} (s : List Nat)
    (hd : rlpListElementLength buf = .ok k) :
    rlpListElementLength (buf ++ s) = .ok k := by
  unfold rlpListElementLength at hd ⊢
  rcases hh : headerDecode buf with e | ⟨h, r⟩
  · rw [hh] at hd; simp at hd
  · rw [hh] at hd
    rw [headerDecode_append s hh]
    have hd' : (if h.isList = true then
        countItemsAux (r.length + 1) (r.length - h.payloadLength) r 0
      else .err .unexpectedString) = .ok k := hd
    show (if h.isList = true then
        countItemsAux ((r ++ s).length + 1) ((r ++ s).length - h.payloadLength) (r ++ s) 0
      else .err .unexpectedString) = .ok k
    by_cases hl : h.isList = true
    · rw [if_pos hl] at hd'
      rw [if_pos hl]
      have hple := headerDecode_ok_le hh
      have ht : (r ++ s).length - h.payloadLength =
          (r.length - h.payloadLength) + s.length := by simp; omega
      rw [ht]
      exact countItemsAux_mono_append _ _ _ _ _ s _ hd' (by simp)
    · rw [if_neg hl] at hd'; simp at hd'

theorem rlpListElementLength_chunks (P : Nat) (cs : List (List Nat)) (rest : List Nat)
    (hP : P = cs.flatten.length) (h64 : P < 2 ^ 64)
    (hall : ∀ c ∈ cs, HeaderChunk c) :
    rlpListElementLength (headerEncode ⟨true, P⟩ ++ cs.flatten ++ rest) = .ok cs.length := by
  unfold rlpListElementLength
  rw [List.append_assoc,
    headerDecode_headerEncode_list P (cs.flatten ++ rest) h64 (by simp [hP])]
  show (if true = true then
      countItemsAux ((cs.flatten ++ rest).length + 1)
        ((cs.flatten ++ rest).length - P) (cs.flatten ++ rest) 0
    else .err .unexpectedString) = .ok cs.length
  rw [if_pos rfl]
  have htarget : (cs.flatten ++ rest).length - P = rest.length := by simp [hP]
  rw [htarget]
  have hcnt := countItemsAux_chunks cs rest 0 ((cs.flatten ++ rest).length + 1) hall ?fuel
  case fuel =>
    have hne : ∀ c ∈ cs, c ≠ [] := fun c hc => (hall c hc).1
    have hlen := chunks_length_le cs hne
    have h2 : (cs.flatten ++ rest).length = cs.flatten.length + rest.length := by simp
    omega
  rw [hcnt]
  simp

theorem headerDecode_ne_nil {h : RlpHeader} {r : List Nat} {buf : List Nat}
    (hd : headerDecode buf = .ok (h, r)) : buf ≠ [] := by
  intro hnil
  rw [hnil] at hd
  simp [headerDecode] at hd

theorem bytesDecode_append {buf : List Nat} {bs r : List Nat} (s : List Nat)
    (hd : bytesDecode buf = .ok (bs, r)) :
    bytesDecode (buf ++ s) = .ok (bs, r ++ s) := by
  unfold bytesDecode at hd ⊢
  rcases hh : headerDecode buf with e | ⟨h, hr⟩
  · rw [hh] at hd; simp at hd
  · rw [hh] at hd
    rw [headerDecode_append s hh]
    have hd' : (if h.isList = true then (.error .unexpectedList : Except RlpError (List Nat × List Nat))
        else .ok (hr.take h.payloadLength, hr.drop h.payloadLength)) = .ok (bs, r) := hd
    show (if h.isList = true then (.error .unexpectedList : Except RlpError (List Nat × List Nat))
        else .ok ((hr ++ s).take h.payloadLength, (hr ++ s).drop h.payloadLength))
      = .ok (bs, r ++ s)
    have hple := headerDecode_ok_le hh
    by_cases hl : h.isList = true
    · rw [if_pos hl] at hd'; simp at hd'
    · rw [if_neg hl] at hd'
      rw [if_neg hl]
      obtain ⟨h1, h2⟩ := by simpa using hd'
      subst h1
      subst h2
      rw [List.take_append_of_le_length hple, List.drop_append_of_le_length hple]

theorem b256Decode_append {buf : List Nat} {c : B256} {r : List Nat} (s : List Nat)
    (hd : b256Decode buf = .ok (c, r)) :
    b256Decode (buf ++ s) = .ok (c, r ++ s) := by
  unfold b256Decode at hd ⊢
  rcases hh : headerDecode buf with e | ⟨h, hr⟩
  · rw [hh] at hd; simp at hd
  · rw [hh] at hd
    rw [headerDecode_append s hh]
    have hd' : (if h.isList = true then (.error .unexpectedList : Except RlpError (B256 × List Nat))
        else if hl : (hr.take h.payloadLength).length = 32 then
          .ok (⟨hr.take h.payloadLength, hl⟩, hr.drop h.payloadLength)
        else .error .unexpectedLength) = .ok (c, r) := hd
    show (if h.isList = true then (.error .unexpectedList : Except RlpError (B256 × List Nat))
        else if hl : ((hr ++ s).take h.payloadLength).length = 32 then
          .ok (⟨(hr ++ s).take h.payloadLength, hl⟩, (hr ++ s).drop h.payloadLength)
        else .error .unexpectedLength) = .ok (c, r ++ s)
    have hple := headerDecode_ok_le hh
    by_cases hl : h.isList = true
    · rw [if_pos hl] at hd'; simp at hd'
    · rw [if_neg hl] at hd'
      rw [if_neg hl]
      rw [List.take_append_of_le_length hple, List.drop_append_of_le_length hple]
      by_cases h32 : (hr.take h.payloadLength).length = 32
      · rw [dif_pos h32] at hd'
        rw [dif_pos h32]
        obtain ⟨h1, h2⟩ := by simpa using hd'
        subst h2
        rw [← h1]
      · rw [dif_neg h32] at hd'; simp at hd'

/-- Fuel monotonicity and suffix stability for the fuelled decoders: a
successful parse is unchanged by more fuel and by bytes appended after the
consumed region. -/
theorem decodeAux_stable : ∀ fuel : Nat,
    (∀ buf n r s fuel', fuel ≤ fuel' → decodeNodeAux fuel buf = .ok (n, r) →
       decodeNodeAux fuel' (buf ++ s) = .ok (n, r ++ s))
  ∧ (∀ buf l r s fuel', fuel ≤ fuel' → decodeVecAux fuel buf = .ok (l, r) →
       decodeVecAux fuel' (buf ++ s) = .ok (l, r ++ s))
  ∧ (∀ buf l fuel', fuel ≤ fuel' → decodeSeqAux fuel buf = .ok l →
       decodeSeqAux fuel' buf = .ok l)
  ∧ (∀ buf n r s fuel', fuel ≤ fuel' →
       tryDecodeLeafOrExtensionPayload fuel buf = .ok (n, r) →
       tryDecodeLeafOrExtensionPayload fuel' (buf ++ s) = .ok (n, r ++ s)) := by
  intro fuel
  induction fuel with
  | zero =>
    refine ⟨?_, ?_, ?_, ?_⟩
    · intro buf n r s fuel' _ hd; simp [decodeNodeAux] at hd
    · intro buf l r s fuel' _ hd; simp [decodeVecAux] at hd
    · intro buf l fuel' _ hd; simp [decodeSeqAux] at hd
    · intro buf n r s fuel' _ hd; simp [tryDecodeLeafOrExtensionPayload] at hd
  | succ fuel ih =>
    obtain ⟨ihN, ihV, ihS, ihP⟩ := ih
    refine ⟨?_, ?_, ?_, ?_⟩
    · -- decodeNodeAux
      intro buf n r s fuel' hle hd
      obtain ⟨f', rfl⟩ : ∃ f', fuel' = f' + 1 := ⟨fuel' - 1, by omega⟩
      rw [decodeNodeAux] at hd
      rw [decodeNodeAux]
      rcases hh : headerDecode buf with e | ⟨h, hr⟩
      · simp only [hh] at hd
        cases hd
      · have hple := headerDecode_ok_le hh
        simp only [hh] at hd
        simp only [headerDecode_append s hh]
        by_cases hl : h.isList = true
        · simp only [if_pos hl] at hd ⊢
          rcases hLL : rlpListElementLength buf with L | e | _ | _ <;>
            simp only [hLL] at hd <;> try cases hd
          simp only [rlpListElementLength_append s hLL]
          by_cases h17 : L = 17
          · simp only [if_pos h17] at hd ⊢
            rcases hV : decodeVecAux fuel buf with ⟨stack, rest⟩ | e | _ | _ <;>
              simp only [hV] at hd <;> cases hd
            simp only [ihV buf _ _ s f' (by omega) hV]
          · simp only [if_neg h17] at hd ⊢
            by_cases h2a : L = 2
            · simp only [if_pos h2a] at hd ⊢
              by_cases hhdr : h.length ≤ buf.length
              · rcases hP : tryDecodeLeafOrExtensionPayload fuel (buf.drop h.length)
                  with ⟨n', rest⟩ | e | _ | _ <;> simp only [hP] at hd <;> cases hd
                rw [List.drop_append_of_le_length hhdr]
                simp only [ihP (buf.drop h.length) _ _ s f' (by omega) hP]
              · exfalso
                have hdrop : buf.drop h.length = [] :=
                  List.drop_eq_nil_of_le (by omega)
                rw [hdrop] at hd
                rcases fuel with _ | f0 <;> simp [tryDecodeLeafOrExtensionPayload,
                  bytesDecode, headerDecode] at hd
            · simp only [if_neg h2a] at hd
              cases hd
        · simp only [if_neg hl] at hd ⊢
          by_cases h0 : h.payloadLength = 0
          · simp only [if_pos h0] at hd ⊢
            cases hd
            have hne : buf ≠ [] := headerDecode_ne_nil hh
            have hlen : h.length ≤ buf.length := by
              have h1 : h.length = 1 := by simp [RlpHeader.length, h0, lengthOfLength]
              have hpos : 0 < buf.length := List.length_pos.2 hne
              omega
            rw [List.drop_append_of_le_length hlen]
          · simp only [if_neg h0] at hd ⊢
            by_cases h32 : h.payloadLength ≠ 32
            · simp only [if_pos h32] at hd
              cases hd
            · simp only [if_neg h32] at hd ⊢
              rcases hB : b256Decode buf with e | ⟨c, rest⟩ <;>
                simp only [hB] at hd <;> cases hd
              simp only [b256Decode_append s hB]
    · -- decodeVecAux
      intro buf l r s fuel' hle hd
      obtain ⟨f', rfl⟩ : ∃ f', fuel' = f' + 1 := ⟨fuel' - 1, by omega⟩
      rw [decodeVecAux] at hd
      rw [decodeVecAux]
      rcases hh : headerDecode buf with e | ⟨h, hr⟩
      · simp only [hh] at hd
        cases hd
      · have hple := headerDecode_ok_le hh
        simp only [hh] at hd
        simp only [headerDecode_append s hh]
        by_cases hl : h.isList = true
        · simp only [if_pos hl] at hd ⊢
          rw [List.take_append_of_le_length hple, List.drop_append_of_le_length hple]
          rcases hS : decodeSeqAux fuel (hr.take h.payloadLength) with stack | e | _ | _ <;>
            simp only [hS] at hd <;> cases hd
          simp only [ihS (hr.take h.payloadLength) _ f' (by omega) hS]
        · simp only [if_neg hl] at hd
          cases hd
    · -- decodeSeqAux
      intro buf l fuel' hle hd
      obtain ⟨f', rfl⟩ : ∃ f', fuel' = f' + 1 := ⟨fuel' - 1, by omega⟩
      rw [decodeSeqAux] at hd
      rw [decodeSeqAux]
      by_cases hb : buf.isEmpty
      · simp only [if_pos hb] at hd ⊢
        exact hd
      · simp only [if_neg hb] at hd ⊢
        rcases hN : decodeNodeAux fuel buf with ⟨n, rest⟩ | e | _ | _ <;>
          simp only [hN] at hd <;> try cases hd
        have hN' : decodeNodeAux f' (buf ++ []) = .ok (n, rest ++ []) :=
          ihN buf n rest [] f' (by omega) hN
        simp only [List.append_nil] at hN'
        simp only [hN']
        rcases hS : decodeSeqAux fuel rest with stack | e | _ | _ <;>
          simp only [hS] at hd <;> cases hd
        simp only [ihS _ _ f' (by omega) hS]
    · -- tryDecodeLeafOrExtensionPayload
      intro buf n r s fuel' hle hd
      obtain ⟨f', rfl⟩ : ∃ f', fuel' = f' + 1 := ⟨fuel' - 1, by omega⟩
      rw [tryDecodeLeafOrExtensionPayload] at hd
      rw [tryDecodeLeafOrExtensionPayload]
      rcases hb : bytesDecode buf with e | ⟨path, buf1⟩
      · simp only [hb] at hd
        cases hd
      · simp only [hb] at hd
        simp only [bytesDecode_append s hb]
        match path with
        | [] => cases hd
        | p0 :: pt =>
          rcases hq : p0 / 16 with _ | (_ | (_ | (_ | m))) <;> simp only [hq] at hd ⊢
          · rcases hN : decodeNodeAux fuel buf1 with ⟨child, rest⟩ | e | _ | _ <;>
              simp only [hN] at hd <;> cases hd
            simp only [ihN buf1 _ _ s f' (by omega) hN]
          · rcases hN : decodeNodeAux fuel buf1 with ⟨child, rest⟩ | e | _ | _ <;>
              simp only [hN] at hd <;> cases hd
            simp only [ihN buf1 _ _ s f' (by omega) hN]
          · rcases hv : bytesDecode buf1 with e | ⟨v, rest⟩ <;>
              simp only [hv] at hd <;> cases hd
            simp only [bytesDecode_append s hv]
          · rcases hv : bytesDecode buf1 with e | ⟨v, rest⟩ <;>
              simp only [hv] at hd <;> cases hd
            simp only [bytesDecode_append s hv]
          · cases hd

theorem blindedLengthSum_le (s : List TrieNode) : blindedLengthSum s ≤ 33 * s.length := by
  induction s with
  | nil => simp [blindedLengthSum]
  | cons a as ih =>
    rw [blindedLengthSum]
    have h1 : (if TrieNode.length a > 33 then 33 else TrieNode.length a) ≤ 33 := by
      split <;> omega
    simp only [List.length_cons]
    omega

theorem lengthOfLength_le_9 (P : Nat) (h : P < 2 ^ 64) : lengthOfLength P ≤ 9 := by
  unfold lengthOfLength
  split
  · omega
  · have := beBytes_length_le P 8 (by norm_num at h ⊢; omega)
    omega

theorem bytesLength_le (b : List Nat) (h : b.length < 2 ^ 60) : bytesLength b < 2 ^ 61 := by
  match b with
  | [] => simp [bytesLength, lengthOfLength]
  | [x] =>
    show (if x < 0x80 then 1 else 1 + lengthOfLength 1) < 2 ^ 61
    split <;> simp [lengthOfLength]
  | x :: y :: t =>
    show (x :: y :: t).length + lengthOfLength (x :: y :: t).length < 2 ^ 61
    have h9 : lengthOfLength (x :: y :: t).length ≤ 9 :=
      lengthOfLength_le_9 _ (by norm_num at h ⊢; omega)
    norm_num at h h9 ⊢
    omega

theorem bytesLength_pos (b : List Nat) : 1 ≤ bytesLength b := by
  match b with
  | [] => simp [bytesLength, lengthOfLength]
  | [x] =>
    show 1 ≤ (if x < 0x80 then 1 else 1 + lengthOfLength 1)
    split <;> simp [lengthOfLength]
  | x :: y :: t =>
    show 1 ≤ (x :: y :: t).length + lengthOfLength (x :: y :: t).length
    simp only [List.length_cons]
    omega

theorem bytesLength_len32 (l : List Nat) (h : l.length = 32) : bytesLength l = 33 := by
  match l with
  | x :: y :: t =>
    show (x :: y :: t).length + lengthOfLength (x :: y :: t).length = 33
    rw [h]
    simp [lengthOfLength]

theorem lengthOfLength_pos (P : Nat) : 1 ≤ lengthOfLength P := by
  unfold lengthOfLength
  split <;> omega

theorem TrieNode.length_pos (n : TrieNode) : 1 ≤ TrieNode.length n := by
  match n with
  | .empty => simp [TrieNode.length]
  | .blinded c => simpa [TrieNode.length] using bytesLength_pos c.val
  | .leaf k v =>
    have := lengthOfLength_pos (bytesLength k + bytesLength v)
    simp only [TrieNode.length]
    omega
  | .extension p c =>
    have := lengthOfLength_pos (bytesLength p +
      if TrieNode.length c > 33 then 33 else TrieNode.length c)
    simp only [TrieNode.length]
    omega
  | .branch s =>
    have := lengthOfLength_pos (blindedLengthSum s)
    simp only [TrieNode.length]
    omega

theorem headerEncode_ne_nil (h : RlpHeader) : headerEncode h ≠ [] := by
  unfold headerEncode
  split <;> simp

theorem encodeSlots_length_good (K : List Nat → B256) (s : List TrieNode)
    (hlen : ∀ a ∈ s, (TrieNode.encode K a).length = TrieNode.length a)
    (hsmall : ∀ a ∈ s, TrieNode.length a ≤ 33) :
    (encodeSlots K s).length = blindedLengthSum s := by
  induction s with
  | nil => rfl
  | cons a as ih =>
    rw [encodeSlots, blindedLengthSum]
    have ha := hsmall a (by simp)
    rw [if_neg (by omega), if_neg (by omega)]
    simp only [List.length_append]
    rw [hlen a (by simp),
      ih (fun b hb => hlen b (by simp [hb])) (fun b hb => hsmall b (by simp [hb]))]

theorem encode_length_good (K : List Nat → B256) (n : TrieNode) (hg : GoodNode n) :
    (TrieNode.encode K n).length = TrieNode.length n := by
  induction hg with
  | empty => rfl
  | blinded c => exact encodeBytes_length c.val
  | leaf p0 kt v hnib hk hv =>
    simp only [TrieNode.encode, TrieNode.length, List.length_append, headerEncode_length,
      encodeBytes_length, RlpHeader.length]
    omega
  | extension p0 pt c hnib hp hsmall hgc ih =>
    simp only [TrieNode.encode, TrieNode.length, List.length_append, headerEncode_length,
      encodeBytes_length, RlpHeader.length]
    rw [if_neg (by omega), if_neg (by omega), ih]
  | branch s hlen17 hsmall hgood ih =>
    simp only [TrieNode.encode, TrieNode.length, List.length_append, headerEncode_length,
      RlpHeader.length]
    rw [encodeSlots_length_good K s ih hsmall]
    omega

theorem headerChunk_header_payload (P : Nat) (payload : List Nat)
    (hP : payload.length = P) (h64 : P < 2 ^ 64) :
    HeaderChunk (headerEncode ⟨true, P⟩ ++ payload) := by
  constructor
  · simp [headerEncode_ne_nil]
  · intro t
    refine ⟨⟨true, P⟩, payload ++ t, ?_, ?_⟩
    · rw [List.append_assoc]
      exact headerDecode_headerEncode_list P (payload ++ t) h64 (by simp [hP])
    · exact List.drop_left' hP

theorem headerChunk_encode_good (K : List Nat → B256) (n : TrieNode) (hg : GoodNode n) :
    HeaderChunk (TrieNode.encode K n) := by
  cases hg with
  | empty =>
    refine ⟨by simp [TrieNode.encode], fun t => ⟨⟨false, 0⟩, t, ?_, by simp⟩⟩
    show headerDecode (0x80 :: t) = .ok (⟨false, 0⟩, t)
    simp [headerDecode]
  | blinded c =>
    show HeaderChunk (encodeBytes c.val)
    exact headerChunk_encodeBytes c.val (by rw [c.property]; norm_num)
  | leaf p0 kt v hnib hk hv =>
    have h1 : (encodeBytes (p0 :: kt) ++ encodeBytes v).length =
        bytesLength (p0 :: kt) + bytesLength v := by
      simp [encodeBytes_length]
    have h64 : bytesLength (p0 :: kt) + bytesLength v < 2 ^ 64 := by
      have := bytesLength_le (p0 :: kt) hk
      have := bytesLength_le v hv
      norm_num at *
      omega
    have := headerChunk_header_payload _ _ h1 h64
    simpa [TrieNode.encode, List.append_assoc] using this
  | extension p0 pt c hnib hp hsmall hgc =>
    have hlen : (TrieNode.encode K c).length = TrieNode.length c :=
      encode_length_good K c hgc
    have h1 : (encodeBytes (p0 :: pt) ++ TrieNode.encode K c).length =
        bytesLength (p0 :: pt) + TrieNode.length c := by
      simp [encodeBytes_length, hlen]
    have h64 : bytesLength (p0 :: pt) + TrieNode.length c < 2 ^ 64 := by
      have := bytesLength_le (p0 :: pt) hp
      norm_num at *
      omega
    have hch := headerChunk_header_payload _ _ h1 h64
    have he : TrieNode.encode K (.extension (p0 :: pt) c) =
        headerEncode ⟨true, bytesLength (p0 :: pt) + TrieNode.length c⟩ ++
          (encodeBytes (p0 :: pt) ++ TrieNode.encode K c) := by
      simp only [TrieNode.encode]
      rw [if_neg (by omega), List.append_assoc]
    rw [he]
    exact hch
  | branch s hlen17 hsmall hgood =>
    have h1 : (encodeSlots K s).length = blindedLengthSum s :=
      encodeSlots_length_good K s (fun a ha => encode_length_good K a (hgood a ha)) hsmall
    have h64 : blindedLengthSum s < 2 ^ 64 := by
      have := blindedLengthSum_le s
      rw [hlen17] at this
      norm_num
      omega
    have := headerChunk_header_payload _ _ h1 h64
    simpa [TrieNode.encode] using this

theorem encodeSlots_eq_flatten_small (K : List Nat → B256) (s : List TrieNode)
    (hsmall : ∀ a ∈ s, TrieNode.length a ≤ 33) :
    encodeSlots K s = (s.map (TrieNode.encode K)).flatten := by
  induction s with
  | nil => rfl
  | cons a as ih =>
    rw [encodeSlots]
    have ha := hsmall a (by simp)
    rw [if_neg (by omega), List.map_cons, List.flatten_cons,
      ih (fun b hb => hsmall b (by simp [hb]))]

theorem encode_ne_nil_good (K : List Nat → B256) (n : TrieNode) (hg : GoodNode n) :
    TrieNode.encode K n ≠ [] := by
  have h1 := encode_length_good K n hg
  have h2 := TrieNode.length_pos n
  intro hc
  rw [hc] at h1
  simp at h1
  omega

theorem decode_encode_aux (K : List Nat → B256) : ∀ fuel : Nat,
    (∀ n rest, GoodNode n → nodeNeed n ≤ fuel →
       decodeNodeAux fuel (TrieNode.encode K n ++ rest) = .ok (n, rest))
  ∧ (∀ s rest, (∀ a ∈ s, GoodNode a) → (∀ a ∈ s, TrieNode.length a ≤ 33) →
       s.length = 17 → 1 + seqNeed s ≤ fuel →
       decodeVecAux fuel
         (headerEncode ⟨true, blindedLengthSum s⟩ ++ (encodeSlots K s ++ rest))
         = .ok (s, rest))
  ∧ (∀ s, (∀ a ∈ s, GoodNode a) → (∀ a ∈ s, TrieNode.length a ≤ 33) →
       seqNeed s ≤ fuel → decodeSeqAux fuel (encodeSlots K s) = .ok s) := by
  intro fuel
  induction fuel using Nat.strong_induction_on with
  | _ fuel ih =>
  refine ⟨?_, ?_, ?_⟩
  · -- node
    intro n rest hg hneed
    cases hg with
    | empty =>
      obtain ⟨f, rfl⟩ : ∃ f, fuel = f + 1 := ⟨fuel - 1, by simp [nodeNeed] at hneed; omega⟩
      rw [decodeNodeAux]
      have hh : headerDecode ((0x80 : Nat) :: rest) = .ok (⟨false, 0⟩, rest) := by
        simp [headerDecode]
      simp only [TrieNode.encode, List.cons_append, List.nil_append]
      simp only [hh]
      simp [RlpHeader.length, lengthOfLength]
    | blinded c =>
      obtain ⟨f, rfl⟩ : ∃ f, fuel = f + 1 := ⟨fuel - 1, by simp [nodeNeed] at hneed; omega⟩
      rw [decodeNodeAux]
      have h32 : c.val.length = 32 := c.property
      have hh : headerDecode (TrieNode.encode K (.blinded c) ++ rest)
          = .ok (⟨false, 32⟩, c.val ++ rest) := by
        have h0 := headerDecode_encodeBytes c.val rest (by rw [h32]; norm_num)
        rw [h32] at h0
        simpa [TrieNode.encode] using h0
      have hb : b256Decode (TrieNode.encode K (.blinded c) ++ rest) = .ok (c, rest) := by
        unfold b256Decode
        simp only [hh]
        rw [if_neg (by simp), List.take_left' h32, List.drop_left' h32, dif_pos c.property]
      simp only [hh]
      rw [if_neg (by simp), if_neg (by norm_num), if_neg (by norm_num)]
      simp only [hb]
    | leaf p0 kt v hnib hk hv =>
      obtain ⟨f2, rfl⟩ : ∃ f2, fuel = f2 + 2 :=
        ⟨fuel - 2, by simp [nodeNeed] at hneed; omega⟩
      have hk64 : (p0 :: kt).length < 2 ^ 64 := by norm_num at hk ⊢; omega
      have hv64 : v.length < 2 ^ 64 := by norm_num at hv ⊢; omega
      have hP64 : bytesLength (p0 :: kt) + bytesLength v < 2 ^ 64 := by
        have hbk := bytesLength_le (p0 :: kt) hk
        have hbv := bytesLength_le v hv
        norm_num at hbk hbv ⊢
        omega
      have hlen : (encodeBytes (p0 :: kt) ++ encodeBytes v).length
          = bytesLength (p0 :: kt) + bytesLength v := by simp [encodeBytes_length]
      have he : TrieNode.encode K (.leaf (p0 :: kt) v)
          = headerEncode ⟨true, bytesLength (p0 :: kt) + bytesLength v⟩ ++
            (encodeBytes (p0 :: kt) ++ encodeBytes v) := by
        simp [TrieNode.encode, List.append_assoc]
      have hh : headerDecode (TrieNode.encode K (.leaf (p0 :: kt) v) ++ rest)
          = .ok (⟨true, bytesLength (p0 :: kt) + bytesLength v⟩,
                 encodeBytes (p0 :: kt) ++ encodeBytes v ++ rest) := by
        rw [he, List.append_assoc]
        have h0 := headerDecode_headerEncode_list
          (bytesLength (p0 :: kt) + bytesLength v)
          (encodeBytes (p0 :: kt) ++ encodeBytes v ++ rest) hP64
          (by simp only [List.length_append] at hlen ⊢; omega)
        rw [h0]
      have hLL : rlpListElementLength (TrieNode.encode K (.leaf (p0 :: kt) v) ++ rest)
          = .ok 2 := by
        have hch : ∀ c ∈ [encodeBytes (p0 :: kt), encodeBytes v], HeaderChunk c := by
          intro c hc
          simp only [List.mem_cons, List.mem_singleton] at hc
          rcases hc with rfl | rfl | hc
          · exact headerChunk_encodeBytes _ hk64
          · exact headerChunk_encodeBytes _ hv64
          · simp at hc
        have h0 := rlpListElementLength_chunks
          (bytesLength (p0 :: kt) + bytesLength v)
          [encodeBytes (p0 :: kt), encodeBytes v] rest
          (by simp [encodeBytes_length]) hP64 hch
        simp only [List.flatten_cons, List.flatten_nil, List.append_nil,
          List.length_cons, List.length_nil] at h0
        rw [he]
        simpa using h0
      have hdrop : (TrieNode.encode K (.leaf (p0 :: kt) v) ++ rest).drop
          (RlpHeader.length ⟨true, bytesLength (p0 :: kt) + bytesLength v⟩)
          = encodeBytes (p0 :: kt) ++ (encodeBytes v ++ rest) := by
        rw [he, List.append_assoc]
        rw [List.drop_left' (by rw [headerEncode_length])]
        rw [List.append_assoc]
      have hbd := bytesDecode_encodeBytes (p0 :: kt) (encodeBytes v ++ rest) hk64
      have hbd2 := bytesDecode_encodeBytes v rest hv64
      have htry : tryDecodeLeafOrExtensionPayload (f2 + 1)
          (encodeBytes (p0 :: kt) ++ (encodeBytes v ++ rest))
          = .ok (.leaf (p0 :: kt) v, rest) := by
        rw [tryDecodeLeafOrExtensionPayload]
        simp only [hbd]
        rcases hnib with h2n | h3n
        · simp only [h2n, hbd2]
        · simp only [h3n, hbd2]
      rw [decodeNodeAux]
      simp only [hh, hLL]
      rw [if_pos trivial, if_neg (by norm_num), if_pos trivial, hdrop]
      simp only [htry]
    | extension p0 pt c hnib hp hsmall hgc =>
      obtain ⟨f2, rfl⟩ : ∃ f2, fuel = f2 + 2 :=
        ⟨fuel - 2, by simp [nodeNeed] at hneed; omega⟩
      have hclen : (TrieNode.encode K c).length = TrieNode.length c :=
        encode_length_good K c hgc
      have hp64 : (p0 :: pt).length < 2 ^ 64 := by norm_num at hp ⊢; omega
      have hP64 : bytesLength (p0 :: pt) + TrieNode.length c < 2 ^ 64 := by
        have hbp := bytesLength_le (p0 :: pt) hp
        norm_num at hbp ⊢
        omega
      have hlen : (encodeBytes (p0 :: pt) ++ TrieNode.encode K c).length
          = bytesLength (p0 :: pt) + TrieNode.length c := by
        simp [encodeBytes_length, hclen]
      have he : TrieNode.encode K (.extension (p0 :: pt) c)
          = headerEncode ⟨true, bytesLength (p0 :: pt) + TrieNode.length c⟩ ++
            (encodeBytes (p0 :: pt) ++ TrieNode.encode K c) := by
        simp only [TrieNode.encode]
        rw [if_neg (by omega), List.append_assoc]
      have hh : headerDecode (TrieNode.encode K (.extension (p0 :: pt) c) ++ rest)
          = .ok (⟨true, bytesLength (p0 :: pt) + TrieNode.length c⟩,
                 encodeBytes (p0 :: pt) ++ TrieNode.encode K c ++ rest) := by
        rw [he, List.append_assoc]
        have h0 := headerDecode_headerEncode_list
          (bytesLength (p0 :: pt) + TrieNode.length c)
          (encodeBytes (p0 :: pt) ++ TrieNode.encode K c ++ rest) hP64
          (by simp only [List.length_append] at hlen ⊢; omega)
        rw [h0]
      have hLL : rlpListElementLength (TrieNode.encode K (.extension (p0 :: pt) c) ++ rest)
          = .ok 2 := by
        have hch : ∀ d ∈ [encodeBytes (p0 :: pt), TrieNode.encode K c], HeaderChunk d := by
          intro d hd
          simp only [List.mem_cons, List.mem_singleton] at hd
          rcases hd with rfl | rfl | hd
          · exact headerChunk_encodeBytes _ hp64
          · exact headerChunk_encode_good K c hgc
          · simp at hd
        have h0 := rlpListElementLength_chunks
          (bytesLength (p0 :: pt) + TrieNode.length c)
          [encodeBytes (p0 :: pt), TrieNode.encode K c] rest
          (by simp [encodeBytes_length, hclen]) hP64 hch
        simp only [List.flatten_cons, List.flatten_nil, List.append_nil,
          List.length_cons, List.length_nil] at h0
        rw [he]
        simpa using h0
      have hdrop : (TrieNode.encode K (.extension (p0 :: pt) c) ++ rest).drop
          (RlpHeader.length ⟨true, bytesLength (p0 :: pt) + TrieNode.length c⟩)
          = encodeBytes (p0 :: pt) ++ (TrieNode.encode K c ++ rest) := by
        rw [he, List.append_assoc]
        rw [List.drop_left' (by rw [headerEncode_length])]
        rw [List.append_assoc]
      have hbd := bytesDecode_encodeBytes (p0 :: pt) (TrieNode.encode K c ++ rest) hp64
      have hnode := (ih f2 (by omega)).1 c rest hgc
        (by simp [nodeNeed] at hneed; omega)
      have htry : tryDecodeLeafOrExtensionPayload (f2 + 1)
          (encodeBytes (p0 :: pt) ++ (TrieNode.encode K c ++ rest))
          = .ok (.extension (p0 :: pt) c, rest) := by
        rw [tryDecodeLeafOrExtensionPayload]
        simp only [hbd]
        rcases hnib with h0n | h1n
        · simp only [h0n, hnode]
        · simp only [h1n, hnode]
      rw [decodeNodeAux]
      simp only [hh, hLL]
      rw [if_pos trivial, if_neg (by norm_num), if_pos trivial, hdrop]
      simp only [htry]
    | branch s hlen17 hsmall hgood =>
      obtain ⟨f, rfl⟩ : ∃ f, fuel = f + 1 := ⟨fuel - 1, by simp [nodeNeed] at hneed; omega⟩
      have hsum : (encodeSlots K s).length = blindedLengthSum s :=
        encodeSlots_length_good K s
          (fun a ha => encode_length_good K a (hgood a ha)) hsmall
      have hP64 : blindedLengthSum s < 2 ^ 64 := by
        have := blindedLengthSum_le s
        rw [hlen17] at this
        norm_num
        omega
      have he : TrieNode.encode K (.branch s)
          = headerEncode ⟨true, blindedLengthSum s⟩ ++ encodeSlots K s := by
        simp only [TrieNode.encode]
      have hh : headerDecode (TrieNode.encode K (.branch s) ++ rest)
          = .ok (⟨true, blindedLengthSum s⟩, encodeSlots K s ++ rest) := by
        rw [he, List.append_assoc]
        exact headerDecode_headerEncode_list _ _ hP64 (by simp [hsum])
      have hLL : rlpListElementLength (TrieNode.encode K (.branch s) ++ rest)
          = .ok 17 := by
        have hch : ∀ d ∈ s.map (TrieNode.encode K), HeaderChunk d := by
          intro d hd
          simp only [List.mem_map] at hd
          obtain ⟨a, ha, rfl⟩ := hd
          exact headerChunk_encode_good K a (hgood a ha)
        have h0 := rlpListElementLength_chunks (blindedLengthSum s)
          (s.map (TrieNode.encode K)) rest
          (by rw [← encodeSlots_eq_flatten_small K s hsmall, hsum]) hP64 hch
        rw [← encodeSlots_eq_flatten_small K s hsmall] at h0
        simp only [List.length_map, hlen17] at h0
        rw [he]
        exact h0
      have hbufeq : TrieNode.encode K (.branch s) ++ rest
          = headerEncode ⟨true, blindedLengthSum s⟩ ++ (encodeSlots K s ++ rest) := by
        rw [he, List.append_assoc]
      have hv := (ih f (by omega)).2.1 s rest hgood hsmall hlen17
        (by simp [nodeNeed] at hneed; omega)
      rw [decodeNodeAux]
      simp only [hh, hLL]
      rw [if_pos trivial, hbufeq]
      simp only [hv]
      rw [if_pos trivial]
  · -- vec
    intro s rest hgood hsmall hlen17 hneed
    obtain ⟨g, rfl⟩ : ∃ g, fuel = g + 1 := ⟨fuel - 1, by omega⟩
    have hsum : (encodeSlots K s).length = blindedLengthSum s :=
      encodeSlots_length_good K s
        (fun a ha => encode_length_good K a (hgood a ha)) hsmall
    have hP64 : blindedLengthSum s < 2 ^ 64 := by
      have h1 := blindedLengthSum_le s
      rw [hlen17] at h1
      norm_num
      omega
    have hh : headerDecode (headerEncode ⟨true, blindedLengthSum s⟩ ++ (encodeSlots K s ++ rest))
        = .ok (⟨true, blindedLengthSum s⟩, encodeSlots K s ++ rest) :=
      headerDecode_headerEncode_list _ _ hP64 (by simp [hsum])
    rw [decodeVecAux]
    simp only [hh]
    rw [if_pos trivial]
    rw [List.take_left' hsum, List.drop_left' hsum]
    have hseq := (ih g (by omega)).2.2 s hgood hsmall (by omega)
    simp only [hseq]
  · -- seq
    intro s hgood hsmall hneed
    obtain ⟨g, rfl⟩ : ∃ g, fuel = g + 1 :=
      ⟨fuel - 1, by have : 1 ≤ seqNeed s := by cases s <;> simp [seqNeed]
                    omega⟩
    match s with
    | [] =>
      rw [decodeSeqAux]
      simp [encodeSlots]
    | a :: as =>
      have ha_good := hgood a (by simp)
      have ha_small := hsmall a (by simp)
      have hslots : encodeSlots K (a :: as) = TrieNode.encode K a ++ encodeSlots K as := by
        rw [encodeSlots, if_neg (by omega)]
      have hne : TrieNode.encode K a ≠ [] := encode_ne_nil_good K a ha_good
      rw [decodeSeqAux, hslots]
      rw [if_neg (by simp [hne])]
      simp only [seqNeed] at hneed
      have hnode := (ih g (by omega)).1 a (encodeSlots K as) ha_good (by omega)
      simp only [hnode]
      have hseq := (ih g (by omega)).2.2 as (fun b hb => hgood b (by simp [hb]))
        (fun b hb => hsmall b (by simp [hb])) (by omega)
      simp only [hseq]

theorem seqNeed_le (s : List TrieNode)
    (hsmall : ∀ a ∈ s, TrieNode.length a ≤ 33)
    (hb : ∀ a ∈ s, nodeNeed a ≤ 3 * TrieNode.length a) :
    seqNeed s ≤ 3 * blindedLengthSum s + 1 := by
  induction s with
  | nil => simp [seqNeed, blindedLengthSum]
  | cons a as ih =>
    have ha := hsmall a (by simp)
    have hba := hb a (by simp)
    have hpos := TrieNode.length_pos a
    have ih' := ih (fun b hbm => hsmall b (by simp [hbm]))
      (fun b hbm => hb b (by simp [hbm]))
    rw [seqNeed, blindedLengthSum, if_neg (by omega)]
    have hm : max (nodeNeed a) (seqNeed as) ≤
        3 * TrieNode.length a + 3 * blindedLengthSum as := by
      apply Nat.max_le.2
      constructor
      · omega
      · omega
    omega

theorem nodeNeed_le (n : TrieNode) (hg : GoodNode n) :
    nodeNeed n ≤ 3 * TrieNode.length n := by
  induction hg with
  | empty => simp [nodeNeed, TrieNode.length]
  | blinded c =>
    have := TrieNode.length_pos (.blinded c)
    simp only [nodeNeed]
    omega
  | leaf p0 kt v hnib hk hv =>
    have := TrieNode.length_pos (.leaf (p0 :: kt) v)
    simp only [nodeNeed]
    omega
  | extension p0 pt c hnib hp hsmall hgc ih =>
    have hbp := bytesLength_pos (p0 :: pt)
    have hl : TrieNode.length (.extension (p0 :: pt) c)
        = lengthOfLength (bytesLength (p0 :: pt) + TrieNode.length c) +
          bytesLength (p0 :: pt) + TrieNode.length c := by
      simp only [TrieNode.length]
      rw [if_neg (by omega)]
    have hlol := lengthOfLength_pos (bytesLength (p0 :: pt) + TrieNode.length c)
    simp only [nodeNeed]
    rw [hl]
    omega
  | branch s hlen17 hsmall hgood ih =>
    have hs := seqNeed_le s hsmall ih
    have hlol := lengthOfLength_pos (blindedLengthSum s)
    simp only [nodeNeed, TrieNode.length]
    omega

theorem decode_encode_roundtrip_core (K : List Nat → B256) (n : TrieNode) (hg : GoodNode n) :
    TrieNode.decode (TrieNode.encode K n) = .ok (n, []) := by
  unfold TrieNode.decode
  have h1 := (decode_encode_aux K (3 * (TrieNode.encode K n).length + 3)).1 n [] hg ?_
  · simpa using h1
  · have h2 := nodeNeed_le n hg
    have h3 := encode_length_good K n hg
    omega

theorem encodeBytes_len32 (l : List Nat) (h : l.length = 32) :
    encodeBytes l = 0xa0 :: l := by
  match l with
  | x :: y :: t =>
    show headerEncode ⟨false, (x :: y :: t).length⟩ ++ (x :: y :: t) = _
    rw [h]
    rfl

/-- Blinding `TrieNode.blind` is idempotent: a blinded node has length 33 (an encoded
32-byte string), which is not greater than 33, so a second `blind` is the
identity. -/
theorem blind_blind (K : List Nat → B256) (n : TrieNode) :
    TrieNode.blind K (TrieNode.blind K n) = TrieNode.blind K n := by
  unfold TrieNode.blind
  by_cases h : TrieNode.length n > 33
  · rw [if_pos h]
    have h33 : TrieNode.length (.blinded (K (TrieNode.encode K n))) = 33 :=
      bytesLength_len32 _ (K (TrieNode.encode K n)).property
    rw [if_neg (by rw [h33]; omega)]
  · rw [if_neg h, if_neg h]

/-- Claim C1. For every well-formed open node (branch stacks have exactly 17
slots, leaf keys start with high nibble 2 or 3, extension prefixes with high
nibble 0 or 1, paths non-empty — the predicate `GoodNode`) in which no
child's encoding exceeds 33 bytes, decoding the bytes produced by
`TrieNode.encode` succeeds and returns exactly the original node, consuming
the whole buffer. -/
theorem decode_encode_roundtrip_open (K : List Nat → B256) (n : TrieNode)
    (hg : GoodNode n) : TrieNode.decode (TrieNode.encode K n) = .ok (n, []) :=
  decode_encode_roundtrip_core K n hg

/-- Witness for C1 at the repository's own leaf test vector
`Leaf{key = 20 64 6f, value = 76 65 72 62 ff}`. -/
theorem decode_encode_roundtrip_open_witness :
    TrieNode.decode
        (TrieNode.encode K0 (.leaf [0x20, 0x64, 0x6f] [0x76, 0x65, 0x72, 0x62, 0xff]))
      = .ok (.leaf [0x20, 0x64, 0x6f] [0x76, 0x65, 0x72, 0x62, 0xff], []) :=
  decode_encode_roundtrip_open K0 _
    (GoodNode.leaf 0x20 [0x64, 0x6f] [0x76, 0x65, 0x72, 0x62, 0xff]
      (Or.inl (by norm_num)) (by norm_num) (by norm_num))

/-- Claim C2 (code bug).  `length` and `encode` disagree on an extension whose
child's own encoding exceeds 33 bytes: on the S3 extension, `length` returns
38 (using the blinded child length 33, payload 37, 1 header byte) while
`encode` emits 39 bytes (its header is computed from the child's un-blinded
length 69, payload 73 ≥ 56, hence a 2-byte long-form header). -/
theorem length_encode_disagree_on_long_extension (K : List Nat → B256) :
    TrieNode.length longChildExt = 38 ∧
      (TrieNode.encode K longChildExt).length = 39 := by
  constructor
  · rfl
  · have h33 : bytesLength (K (TrieNode.encode K longLeaf)).val = 33 :=
      bytesLength_len32 _ (K (TrieNode.encode K longLeaf)).property
    have he : TrieNode.encode K longChildExt =
        headerEncode ⟨true, bytesLength [0x00, 0x64, 0x6f] + TrieNode.length longLeaf⟩ ++
          encodeBytes [0x00, 0x64, 0x6f] ++
          encodeBytes (K (TrieNode.encode K longLeaf)).val := by
      show TrieNode.encode K (.extension [0x00, 0x64, 0x6f] longLeaf) = _
      simp only [TrieNode.encode]
      rw [if_pos (by decide)]
    rw [he]
    simp only [List.length_append, encodeBytes_length, h33]
    decide

/-- Claim C3 (code bug).  Encoding the S3 extension produces the 39-byte
sequence `f8 49 83 00 64 6f a0 ‖ digest` — the header declares the
un-blinded 73-byte payload — and not the 38-byte `e5 83 00 64 6f a0 ‖
digest` stated by the spec (which is the repository's own
`EXTENSION_RLP` test constant). -/
theorem encode_long_extension_header_bug (K : List Nat → B256) :
    TrieNode.encode K longChildExt =
      [0xf8, 0x49, 0x83, 0x00, 0x64, 0x6f, 0xa0] ++ (K (TrieNode.encode K longLeaf)).val
    ∧ TrieNode.encode K longChildExt ≠
      [0xe5, 0x83, 0x00, 0x64, 0x6f, 0xa0] ++ (K (TrieNode.encode K longLeaf)).val := by
  have hval := (K (TrieNode.encode K longLeaf)).property
  have he : TrieNode.encode K longChildExt =
      headerEncode ⟨true, bytesLength [0x00, 0x64, 0x6f] + TrieNode.length longLeaf⟩ ++
        encodeBytes [0x00, 0x64, 0x6f] ++
        encodeBytes (K (TrieNode.encode K longLeaf)).val := by
    show TrieNode.encode K (.extension [0x00, 0x64, 0x6f] longLeaf) = _
    simp only [TrieNode.encode]
    rw [if_pos (by decide)]
  have hb : encodeBytes (K (TrieNode.encode K longLeaf)).val =
      0xa0 :: (K (TrieNode.encode K longLeaf)).val :=
    encodeBytes_len32 _ hval
  constructor
  · rw [he, hb]
    rfl
  · rw [he, hb]
    intro hc
    have hlen := congrArg List.length hc
    have h1 : (headerEncode ⟨true,
        bytesLength [0x00, 0x64, 0x6f] + TrieNode.length longLeaf⟩).length = 2 := by decide
    have h2 : (encodeBytes [0x00, 0x64, 0x6f]).length = 4 := by decide
    simp only [List.length_append, List.length_cons, List.length_nil, hval, h1, h2] at hlen
    omega

/-- Claim C4 (code bug).  Decoding `c2 80 80` — a well-framed 2-element list
whose first element is the empty byte string — panics in the source
(`path[0]` indexes an empty `Bytes`), modelled as the `crash` outcome,
instead of returning an error value: `decode` is not total. -/
theorem decode_crashes_on_empty_path :
    TrieNode.decode [0xc2, 0x80, 0x80] = .crash := by rfl

/-- Claim C5.  `blind` is idempotent: `blind (blind n) = blind n` for every
node `n` and every digest function; in particular `blind` leaves an
already-blinded node, or any node whose encoding is at most 33 bytes,
unchanged. -/
theorem blind_idempotent (K : List Nat → B256) (n : TrieNode) :
    TrieNode.blind K (TrieNode.blind K n) = TrieNode.blind K n :=
  blind_blind K n

/-- Claim C6.  On a byte-string item (`headerDecode` yields a non-list
header), `decode` returns `Empty` when the payload length is 0 (consuming
the 1-byte header), `Blinded` carrying the 32 payload bytes when the payload
length is 32, and the `UnexpectedLength` error for every other payload
length. -/
theorem decode_string_cases (buf : List Nat) (h : RlpHeader) (rest : List Nat)
    (hh : headerDecode buf = .ok (h, rest)) (hl : h.isList = false) :
    (h.payloadLength = 0 → TrieNode.decode buf = .ok (.empty, buf.drop 1))
    ∧ (h.payloadLength = 32 →
        ∃ c : B256, c.val = rest.take 32 ∧
          TrieNode.decode buf = .ok (.blinded c, rest.drop 32))
    ∧ (h.payloadLength ≠ 0 → h.payloadLength ≠ 32 →
        TrieNode.decode buf = .err .unexpectedLength) := by
  unfold TrieNode.decode
  have hf : 3 * buf.length + 3 = (3 * buf.length + 2) + 1 := rfl
  rw [hf, decodeNodeAux]
  simp only [hh]
  rw [if_neg (by simp [hl])]
  refine ⟨?_, ?_, ?_⟩
  · intro h0
    rw [if_pos h0]
    have hl1 : h.length = 1 := by simp [RlpHeader.length, h0, lengthOfLength]
    rw [hl1]
  · intro h32
    have hple := headerDecode_ok_le hh
    have htake : (rest.take 32).length = 32 := by
      rw [List.length_take]
      omega
    have hb : b256Decode buf = .ok (⟨rest.take 32, htake⟩, rest.drop 32) := by
      unfold b256Decode
      simp only [hh]
      rw [if_neg (by simp [hl]), h32, dif_pos htake]
    refine ⟨⟨rest.take 32, htake⟩, rfl, ?_⟩
    rw [if_neg (by omega), if_neg (by omega)]
    simp only [hb]
  · intro h0 h32
    rw [if_neg h0, if_pos h32]

/-- Witness for C6 at the 2-byte string `82 ab cd` (payload length 2):
`decode` returns the `UnexpectedLength` error. -/
theorem decode_string_cases_witness :
    TrieNode.decode [0x82, 0xab, 0xcd] = .err .unexpectedLength :=
  (decode_string_cases [0x82, 0xab, 0xcd] ⟨false, 2⟩ [0xab, 0xcd]
    (by rfl) rfl).2.2 (by decide) (by decide)

/-- Claim C7.  On a 2-element list whose first element is a byte string whose
first byte's high-order nibble is outside `{0,1,2,3}`, the payload decoder
(invoked after the list header has been consumed) returns the distinct
bad-path-prefix error (`anyhow!("Unexpected path identifier in high-order
nibble")`), which `Decodable::decode` surfaces through its `map_err` as the
`UnexpectedList` error code. -/
theorem decode_bad_path_nibble (buf : List Nat) (h : RlpHeader) (rest : List Nat)
    (p0 : Nat) (pt buf2 : List Nat)
    (hh : headerDecode buf = .ok (h, rest)) (hl : h.isList = true)
    (hLL : rlpListElementLength buf = .ok 2)
    (hp : bytesDecode (buf.drop h.length) = .ok (p0 :: pt, buf2))
    (hnib : 4 ≤ p0 / 16) :
    (∀ f, tryDecodeLeafOrExtensionPayload (f + 1) (buf.drop h.length)
        = .err .badPathPrefix)
    ∧ TrieNode.decode buf = .err .unexpectedList := by
  have htry : ∀ f, tryDecodeLeafOrExtensionPayload (f + 1) (buf.drop h.length)
      = .err .badPathPrefix := by
    intro f
    rw [tryDecodeLeafOrExtensionPayload]
    simp only [hp]
    obtain ⟨m, hm⟩ : ∃ m, p0 / 16 = m + 4 := ⟨p0 / 16 - 4, by omega⟩
    simp only [hm]
  refine ⟨htry, ?_⟩
  unfold TrieNode.decode
  have hf : 3 * buf.length + 3 = (3 * buf.length + 2) + 1 := rfl
  rw [hf, decodeNodeAux]
  simp only [hh]
  rw [if_pos hl]
  simp only [hLL]
  rw [if_neg (by norm_num), if_pos trivial]
  have h2 : tryDecodeLeafOrExtensionPayload (3 * buf.length + 2) (buf.drop h.length)
      = .err .badPathPrefix := htry (3 * buf.length + 1)
  simp only [h2]

/-- Witness for C7 at the bytes `c2 40 80` (2-list whose first element is
the 1-byte string `40`, high nibble 4). -/
theorem decode_bad_path_nibble_witness :
    tryDecodeLeafOrExtensionPayload 1 [0x40, 0x80] = .err .badPathPrefix ∧
    TrieNode.decode [0xc2, 0x40, 0x80] = .err .unexpectedList :=
  ⟨(decode_bad_path_nibble [0xc2, 0x40, 0x80] ⟨true, 2⟩ [0x40, 0x80] 0x40 [] [0x80]
      (by rfl) rfl (by rfl) (by rfl) (by decide)).1 0,
   (decode_bad_path_nibble [0xc2, 0x40, 0x80] ⟨true, 2⟩ [0x40, 0x80] 0x40 [] [0x80]
      (by rfl) rfl (by rfl) (by rfl) (by decide)).2⟩

/-- Claim C8 (counterexample).  The claim that the bad-arity error is distinct
from the bad-string-length `UnexpectedLength` error fails: decoding the
arity-3 list `c3 80 80 80` returns exactly the same error value
(`UnexpectedLength`) as decoding the 2-byte string `82 00 00`. -/
theorem decode_arity_error_not_distinct :
    TrieNode.decode [0xc3, 0x80, 0x80, 0x80] = .err .unexpectedLength ∧
    TrieNode.decode [0xc3, 0x80, 0x80, 0x80] = TrieNode.decode [0x82, 0x00, 0x00] :=
  ⟨by rfl, by rfl⟩

/-- Claim C8 (amended).  When `decode` encounters a list whose top-level
element count is neither 2 nor 17, it returns an error — but the error is
the same `UnexpectedLength` variant used for byte strings of bad payload
length, not a distinct arity error. -/
theorem decode_unexpected_arity_amended (buf : List Nat) (h : RlpHeader)
    (rest : List Nat) (k : Nat)
    (hh : headerDecode buf = .ok (h, rest)) (hl : h.isList = true)
    (hLL : rlpListElementLength buf = .ok k) (h17 : k ≠ 17) (h2 : k ≠ 2) :
    TrieNode.decode buf = .err .unexpectedLength := by
  unfold TrieNode.decode
  have hf : 3 * buf.length + 3 = (3 * buf.length + 2) + 1 := rfl
  rw [hf, decodeNodeAux]
  simp only [hh]
  rw [if_pos hl]
  simp only [hLL]
  rw [if_neg h17, if_neg h2]

/-- Witness for the amended C8 at the arity-3 list `c4 80 80 81 ff`. -/
theorem decode_unexpected_arity_amended_witness :
    TrieNode.decode [0xc4, 0x80, 0x80, 0x81, 0xff] = .err .unexpectedLength :=
  decode_unexpected_arity_amended [0xc4, 0x80, 0x80, 0x81, 0xff] ⟨true, 4⟩
    [0x80, 0x80, 0x81, 0xff] 3 (by rfl) rfl (by rfl) (by decide) (by decide)

/-- Claim C9.  `decode` never reads past the item it consumes: if decoding `b`
succeeds with node `n` leaving remainder `r`, then decoding `b ++ s`
succeeds with the same node `n`, consumes exactly the same bytes, and leaves
`r ++ s`. -/
theorem decode_suffix_stable (b s : List Nat) (n : TrieNode) (r : List Nat)
    (hd : TrieNode.decode b = .ok (n, r)) :
    TrieNode.decode (b ++ s) = .ok (n, r ++ s) := by
  unfold TrieNode.decode at hd ⊢
  exact (decodeAux_stable (3 * b.length + 3)).1 b n r s (3 * (b ++ s).length + 3)
    (by simp) hd

/-- Witness for C9: `80` decodes to `Empty` with nothing left, so `80 07`
decodes to `Empty` leaving `07`. -/
theorem decode_suffix_stable_witness :
    TrieNode.decode ([0x80] ++ [0x07]) = .ok (.empty, [] ++ [0x07]) :=
  decode_suffix_stable [0x80] [0x07] .empty [] (by rfl)

/-- Claim C10.  `EthereumDataSource::open_data` always returns `Ok`, and the
returned iterator is the `Blob` variant exactly when `ecotone_timestamp` is
`Some e` with `block_ref.timestamp ≥ e`; in every other case (no ecotone
timestamp, or a block before it) it is the `Calldata` variant. -/
theorem openData_ok_and_variant {C B : Type} (s : EthereumDataSource C B)
    (block_ref : BlockInfo) (batcher_address : Nat) :
    (∃ v, s.openData block_ref batcher_address = .ok v)
    ∧ (∀ v, s.openData block_ref batcher_address = .ok v →
        (v.isBlob = true ↔
          ∃ e, s.ecotone_timestamp = some e ∧ e ≤ block_ref.timestamp)) := by
  have hdef : s.openData block_ref batcher_address =
      if (s.ecotone_timestamp.map fun e => decide (block_ref.timestamp ≥ e)).getD false then
        .ok (.blob ⟨s.chain_provider, s.blob_provider, batcher_address, block_ref, s.signer⟩)
      else .ok (.calldata ⟨s.chain_provider, batcher_address, block_ref, s.signer⟩) := rfl
  rcases he : s.ecotone_timestamp with _ | e
  · rw [hdef, he]
    simp only [Option.map_none', Option.getD_none, Bool.false_eq_true, if_false]
    refine ⟨⟨_, rfl⟩, ?_⟩
    intro v hv
    cases hv
    simp [EthereumDataSourceVariant.isBlob]
  · by_cases ht : e ≤ block_ref.timestamp
    · rw [hdef, he]
      simp only [Option.map_some', Option.getD_some]
      rw [if_pos (decide_eq_true ht)]
      refine ⟨⟨_, rfl⟩, ?_⟩
      intro v hv
      cases hv
      simp [EthereumDataSourceVariant.isBlob, ht]
    · rw [hdef, he]
      simp only [Option.map_some', Option.getD_some]
      rw [if_neg (by simpa using ht)]
      refine ⟨⟨_, rfl⟩, ?_⟩
      intro v hv
      cases hv
      simp [EthereumDataSourceVariant.isBlob, ht]
